import Mathlib

/-!
Shallow embedding of the note-scheduling / playback-synchronization logic of
the SharkByte-Project repository (MusicCompanionApp.py, metronomeApp.py,
create_sheet.py), together with theorems settling the claims about it.

Times are embedded as rationals (`ℚ`), MIDI pitches as naturals (`ℕ`), and
Python `set` objects of pitches as `Finset ℕ`.
-/

namespace SharkByte

/-- A note record as produced by `load_midi` in both files: a dict with keys
`start`, `end`, `pitch`.  The Python key `end` is a reserved word in Lean, so
the field is named `finish`. -/
structure Note where
  start : ℚ
  finish : ℚ
  pitch : ℕ
  deriving DecidableEq, Repr

/-- `SCREEN_WIDTH = 1200` (MusicCompanionApp.py line 42; same value in
metronomeApp.py line 551). -/
def SCREEN_WIDTH : ℚ := 1200

/-- `PIXELS_PER_SECOND = 150` (MusicCompanionApp.py line 48). -/
def PIXELS_PER_SECOND_MCA : ℚ := 150

/-- `playhead_x = SCREEN_WIDTH // 2` (exact: 1200 / 2 = 600). -/
def playhead_x : ℚ := 600

/-- The sounding-set computation of metronomeApp.py lines 1743-1747:

    playing_pitches = set()
    for note in notes:
        if note['start'] <= current_time <= note['end']:
            playing_pitches.add(note['pitch'])
-/
def playing_pitches (notes : List Note) (t : ℚ) : Finset ℕ :=
  notes.foldl
    (fun s n => if n.start ≤ t ∧ t ≤ n.finish then insert n.pitch s else s) ∅

/-- The sounding-set computation of MusicCompanionApp.py `run_music_sheet`
lines 385-399: the loop computes on-screen coordinates for each note, skips
(`continue`) notes culled as off-screen (`end_x < -50 or
start_x > SCREEN_WIDTH + 50`) before the set insertion, and otherwise inserts
the pitch when `note['start'] <= current_time <= note['end']`. -/
def playing_pitches_mca (notes : List Note) (t : ℚ) : Finset ℕ :=
  notes.foldl
    (fun s n =>
      let start_x : ℚ := playhead_x + (n.start - t) * PIXELS_PER_SECOND_MCA
      let end_x : ℚ := playhead_x + (n.finish - t) * PIXELS_PER_SECOND_MCA
      if end_x < -50 ∨ start_x > SCREEN_WIDTH + 50 then s
      else if n.start ≤ t ∧ t ≤ n.finish then insert n.pitch s else s)
    ∅

/-- Membership in a fold that conditionally inserts pitches. -/
theorem mem_foldl_insert (notes : List Note) (p : Note → Prop) [DecidablePred p]
    (s : Finset ℕ) (q : ℕ) :
    q ∈ notes.foldl (fun s n => if p n then insert n.pitch s else s) s ↔
      q ∈ s ∨ ∃ n ∈ notes, n.pitch = q ∧ p n := by
  induction notes generalizing s with
  | nil => simp
  | cons m ms ih =>
    by_cases hm : p m <;>
      simp only [List.foldl_cons, hm, if_true, if_false, ih, Finset.mem_insert,
        List.mem_cons] <;>
      aesop

/-- A note whose interval contains the playhead time is never culled as
off-screen, so the MusicCompanionApp fold step agrees with the plain one. -/
theorem playing_pitches_mca_eq (notes : List Note) (t : ℚ) :
    playing_pitches_mca notes t = playing_pitches notes t := by
  unfold playing_pitches_mca playing_pitches
  congr 1
  funext s n
  simp only
  by_cases hcull :
      playhead_x + (n.finish - t) * PIXELS_PER_SECOND_MCA < -50 ∨
        playhead_x + (n.start - t) * PIXELS_PER_SECOND_MCA > SCREEN_WIDTH + 50
  · rw [if_pos hcull]
    have hns : ¬(n.start ≤ t ∧ t ≤ n.finish) := by
      rintro ⟨h1, h2⟩
      rcases hcull with hc | hc
      · rw [playhead_x, PIXELS_PER_SECOND_MCA] at hc
        nlinarith
      · rw [playhead_x, PIXELS_PER_SECOND_MCA, SCREEN_WIDTH] at hc
        nlinarith
    rw [if_neg hns]
  · rw [if_neg hcull]

theorem mem_playing_pitches (notes : List Note) (t : ℚ) (q : ℕ) :
    q ∈ playing_pitches notes t ↔
      ∃ n ∈ notes, n.pitch = q ∧ n.start ≤ t ∧ t ≤ n.finish := by
  unfold playing_pitches
  rw [mem_foldl_insert]
  simp

/-- C1: a pitch is in the computed sounding set iff some note with that pitch
has the current time in its [start, end] interval; outside every interval the
set is empty; the same holds for the MusicCompanionApp variant with the
off-screen culling `continue`, and duplicates collapse because the result is
a set. -/
theorem sounding_set_characterization (notes : List Note) (t : ℚ) (q : ℕ) :
    (q ∈ playing_pitches notes t ↔
       ∃ n ∈ notes, n.pitch = q ∧ n.start ≤ t ∧ t ≤ n.finish) ∧
    (q ∈ playing_pitches_mca notes t ↔
       ∃ n ∈ notes, n.pitch = q ∧ n.start ≤ t ∧ t ≤ n.finish) ∧
    ((∀ n ∈ notes, ¬(n.start ≤ t ∧ t ≤ n.finish)) →
       playing_pitches notes t = ∅ ∧ playing_pitches_mca notes t = ∅) := by
  refine ⟨mem_playing_pitches notes t q, ?_, ?_⟩
  · rw [playing_pitches_mca_eq]
    exact mem_playing_pitches notes t q
  · intro hout
    have hempty : playing_pitches notes t = ∅ := by
      apply Finset.eq_empty_of_forall_not_mem
      intro x hx
      rcases (mem_playing_pitches notes t x).mp hx with ⟨n, hn, _, hin⟩
      exact hout n hn hin
    exact ⟨hempty, by rw [playing_pitches_mca_eq]; exact hempty⟩

/-- Witness for C1 at a concrete input: the spec scenario notes at time 3
(outside every interval) yield an empty sounding set in both variants. -/
theorem sounding_set_characterization_witness :
    playing_pitches [⟨0, 1, 60⟩, ⟨1/2, 3/2, 64⟩] 3 = ∅ ∧
      playing_pitches_mca [⟨0, 1, 60⟩, ⟨1/2, 3/2, 64⟩] 3 = ∅ :=
  (sounding_set_characterization [⟨0, 1, 60⟩, ⟨1/2, 3/2, 64⟩] 3 0).2.2
    (by intro n hn; fin_cases hn <;> norm_num)

/-- The frame-to-frame edge detector, the two lines repeated in
metronomeApp.py lines 1753-1754 and MusicCompanionApp.py lines 401-402:

    new_on = playing_pitches - prev_playing
    new_off = prev_playing - playing_pitches

packaged as the pure function `(previous_set, current_set) ->
(turned_on, turned_off)` the spec describes. -/
def edge_diff (prev_playing playing_pitches : Finset ℕ) : Finset ℕ × Finset ℕ :=
  (playing_pitches \ prev_playing, prev_playing \ playing_pitches)

/-- The note-on calls a sound backend emits when driven by the diff: the
`for p in new_on: fs.noteon(0, p, 100)` loop visits each element of the set
once (metronomeApp.py lines 1764-1770). -/
def note_on_calls (prev cur : Finset ℕ) : List ℕ :=
  ((edge_diff prev cur).1).sort (· ≤ ·)

/-- The note-off calls emitted by the `for p in new_off` loop
(metronomeApp.py lines 1781-1786). -/
def note_off_calls (prev cur : Finset ℕ) : List ℕ :=
  ((edge_diff prev cur).2).sort (· ≤ ·)

theorem count_sorted (s : Finset ℕ) (q : ℕ) :
    (s.sort (· ≤ ·)).count q = if q ∈ s then 1 else 0 := by
  by_cases hq : q ∈ s
  · rw [if_pos hq]
    exact List.count_eq_one_of_mem (Finset.sort_nodup _ s)
      ((Finset.mem_sort _).mpr hq)
  · rw [if_neg hq]
    exact List.count_eq_zero_of_not_mem
      (fun h => hq ((Finset.mem_sort _).mp h))

/-- C2: the edge detector computes exactly the set differences — `new_on` is
the set of pitches sounding now and not before, `new_off` the converse — and
a backend driven by these sets emits exactly one note-on (resp. note-off)
call per transitioning pitch and none for any other pitch. -/
theorem edge_diff_characterization (prev cur : Finset ℕ) (q : ℕ) :
    (q ∈ (edge_diff prev cur).1 ↔ q ∈ cur ∧ q ∉ prev) ∧
    (q ∈ (edge_diff prev cur).2 ↔ q ∈ prev ∧ q ∉ cur) ∧
    (note_on_calls prev cur).count q = (if q ∈ cur ∧ q ∉ prev then 1 else 0) ∧
    (note_off_calls prev cur).count q = (if q ∈ prev ∧ q ∉ cur then 1 else 0) := by
  have hon : q ∈ (edge_diff prev cur).1 ↔ q ∈ cur ∧ q ∉ prev :=
    Finset.mem_sdiff
  have hoff : q ∈ (edge_diff prev cur).2 ↔ q ∈ prev ∧ q ∉ cur :=
    Finset.mem_sdiff
  refine ⟨hon, hoff, ?_, ?_⟩
  · rw [note_on_calls, count_sorted]
    by_cases h : q ∈ cur ∧ q ∉ prev
    · rw [if_pos (hon.mpr h), if_pos h]
    · rw [if_neg (fun hc => h (hon.mp hc)), if_neg h]
  · rw [note_off_calls, count_sorted]
    by_cases h : q ∈ prev ∧ q ∉ cur
    · rw [if_pos (hoff.mpr h), if_pos h]
    · rw [if_neg (fun hc => h (hoff.mp hc)), if_neg h]

/-- C6: the diff of a set with itself is empty in both directions — on the
frame after `prev_playing = playing_pitches` is executed, an unchanged
sounding set produces no on/off events. -/
theorem edge_diff_self (s : Finset ℕ) : edge_diff s s = (∅, ∅) := by
  simp [edge_diff]

/-- The `prev_playing` variable across frames: initialised to `set()` before
the frame loop (metronomeApp.py line 1666) and assigned the previous frame's
`playing_pitches` at the end of each frame (line 1788).  `ts i` is the
`current_time` sampled at frame `i`. -/
def prev_playing_at (notes : List Note) (ts : ℕ → ℚ) : ℕ → Finset ℕ
  | 0 => ∅
  | i + 1 => playing_pitches notes (ts i)

/-- `new_on` at frame `i` (metronomeApp.py line 1753). -/
def new_on_at (notes : List Note) (ts : ℕ → ℚ) (i : ℕ) : Finset ℕ :=
  (edge_diff (prev_playing_at notes ts i) (playing_pitches notes (ts i))).1

/-- `new_off` at frame `i` (metronomeApp.py line 1754). -/
def new_off_at (notes : List Note) (ts : ℕ → ℚ) (i : ℕ) : Finset ℕ :=
  (edge_diff (prev_playing_at notes ts i) (playing_pitches notes (ts i))).2

/-- The spec's concrete scenario notes:
`[{start: 0.0, end: 1.0, pitch: 60}, {start: 0.5, end: 1.5, pitch: 64}]`. -/
def spec_notes : List Note := [⟨0, 1, 60⟩, ⟨1/2, 3/2, 64⟩]

/-- The spec scenario's sample times t = 0.2, 0.7, 1.2, 1.6. -/
def spec_times : ℕ → ℚ
  | 0 => 1/5
  | 1 => 7/10
  | 2 => 6/5
  | _ => 8/5

/-- C3: on the spec's concrete scenario, sampling at t = 0.2, 0.7, 1.2, 1.6
with the previous set threaded frame to frame from the empty set:
sounding {60}; then {60,64} with on-edge {64}; then {64} with off-edge {60};
then {} with off-edge {64}. -/
theorem spec_scenario :
    playing_pitches spec_notes (spec_times 0) = {60} ∧
    playing_pitches spec_notes (spec_times 1) = {60, 64} ∧
    new_on_at spec_notes spec_times 1 = {64} ∧
    playing_pitches spec_notes (spec_times 2) = {64} ∧
    new_off_at spec_notes spec_times 2 = {60} ∧
    playing_pitches spec_notes (spec_times 3) = ∅ ∧
    new_off_at spec_notes spec_times 3 = {64} := by
  have h0 : playing_pitches spec_notes (spec_times 0) = {60} := by
    norm_num [playing_pitches, spec_notes, spec_times, List.foldl]
  have h1 : playing_pitches spec_notes (spec_times 1) = {60, 64} := by
    norm_num [playing_pitches, spec_notes, spec_times, List.foldl]
    decide
  have h2 : playing_pitches spec_notes (spec_times 2) = {64} := by
    norm_num [playing_pitches, spec_notes, spec_times, List.foldl]
  have h3 : playing_pitches spec_notes (spec_times 3) = ∅ := by
    norm_num [playing_pitches, spec_notes, spec_times, List.foldl]
  have p1 : prev_playing_at spec_notes spec_times 1 =
      playing_pitches spec_notes (spec_times 0) := rfl
  have p2 : prev_playing_at spec_notes spec_times 2 =
      playing_pitches spec_notes (spec_times 1) := rfl
  have p3 : prev_playing_at spec_notes spec_times 3 =
      playing_pitches spec_notes (spec_times 2) := rfl
  refine ⟨h0, h1, ?_, h2, ?_, h3, ?_⟩
  · rw [new_on_at, p1, h0, h1]
    decide
  · rw [new_off_at, p2, h1, h2]
    decide
  · rw [new_off_at, p3, h2, h3]
    decide

/-- C5: under strictly increasing frame times and same-pitch notes with
non-overlapping [start, end] intervals, a pitch appears in `new_on` at most
once per note interval containing sampled frame times: if note `n`'s pitch is
in `new_on` at frame `i` with `ts i` inside `n`'s interval, it is not in
`new_on` at any later frame `j` whose time is still inside `n`'s interval. -/
theorem on_edge_at_most_once (notes : List Note) (ts : ℕ → ℚ)
    (hmono : StrictMono ts)
    (hdisj : ∀ n₁ ∈ notes, ∀ n₂ ∈ notes, n₁.pitch = n₂.pitch → n₁ ≠ n₂ →
      n₁.finish < n₂.start ∨ n₂.finish < n₁.start)
    (n : Note) (hn : n ∈ notes) (i j : ℕ) (hij : i < j)
    (hon_i : n.pitch ∈ new_on_at notes ts i)
    (hti : n.start ≤ ts i ∧ ts i ≤ n.finish)
    (htj : n.start ≤ ts j ∧ ts j ≤ n.finish) :
    n.pitch ∉ new_on_at notes ts j := by
  intro hon_j
  obtain ⟨k, rfl⟩ : ∃ k, j = k + 1 := ⟨j - 1, by omega⟩
  have hik : i ≤ k := Nat.lt_succ_iff.mp hij
  have hprev : n.pitch ∉ playing_pitches notes (ts k) := by
    have := (Finset.mem_sdiff.mp hon_j).2
    simpa [prev_playing_at] using this
  apply hprev
  refine (mem_playing_pitches notes (ts k) n.pitch).mpr ⟨n, hn, rfl, ?_, ?_⟩
  · exact le_trans hti.1 (hmono.monotone hik)
  · exact le_trans (hmono.monotone (Nat.le_succ k)) htj.2

/-- Witness for C5: one note [0, 10] of pitch 60 sampled at `ts i = i`; the
on-edge fires at frame 0 and theorem `on_edge_at_most_once` then rules out a
second on-edge at frame 1, which lies in the same interval. -/
theorem on_edge_at_most_once_witness :
    (60 : ℕ) ∉ new_on_at [⟨0, 10, 60⟩] (fun i => (i : ℚ)) 1 :=
  on_edge_at_most_once [⟨0, 10, 60⟩] (fun i => (i : ℚ))
    Nat.strictMono_cast
    (by
      intro a ha b hb hp hne
      rcases List.mem_singleton.mp ha with rfl
      rcases List.mem_singleton.mp hb with rfl
      exact absurd rfl hne)
    ⟨0, 10, 60⟩ (List.mem_singleton.mpr rfl) 0 1 Nat.zero_lt_one
    (by
      show (60 : ℕ) ∈ (edge_diff (prev_playing_at _ _ 0) (playing_pitches _ _)).1
      rw [edge_diff]
      simp only [prev_playing_at, Finset.sdiff_empty]
      rw [show playing_pitches [⟨0, 10, 60⟩] ((0 : ℕ) : ℚ) = {60} by
        norm_num [playing_pitches, List.foldl]]
      exact Finset.mem_singleton_self 60)
    (by norm_num)
    (by norm_num)

/-- `END_WAIT_SECONDS = 3` (metronomeApp.py line 1257). -/
def END_WAIT_SECONDS : ℚ := 3

/-- `midi_end_time` as computed by the loaders: the maximum `end` over all
notes, starting from 0.0 (MusicCompanionApp.py lines 164-172). -/
def midi_end_time (notes : List Note) : ℚ :=
  notes.foldl (fun m n => max m n.finish) 0

/-- The end-of-piece bookkeeping of the playback loop:
`end_timer_started`, `end_timer_start` and the finished/stopped flag
(metronomeApp.py lines 1666-1667, 1799-1805). -/
structure EndState where
  end_timer_started : Bool
  end_timer_start : ℚ
  finished : Bool
  deriving DecidableEq, Repr

/-- One frame of the end-of-piece handling at playback time `t`
(metronomeApp.py lines 1799-1805):

    if current_time >= midi_end_time and not end_timer_started:
        end_timer_started = True
        end_timer_start = time.time()
    if end_timer_started and (time.time() - end_timer_start) >= END_WAIT_SECONDS:
        running = False
        exit_reason = 'finished'

During continuous playback `time.time()` equals `current_time` plus the fixed
offset `start_time` (line 1669), so the embedding measures both the timer
origin and the elapsed wait on the playback clock `t`. -/
def end_step (m wait : ℚ) (s : EndState) (t : ℚ) : EndState :=
  let s1 := if m ≤ t ∧ s.end_timer_started = false then
    { s with end_timer_started := true, end_timer_start := t } else s
  if s1.end_timer_started = true ∧ wait ≤ t - s1.end_timer_start then
    { s1 with finished := true } else s1

/-- The `while running` frame loop restricted to its end-of-piece effect: it
consumes frame times until the finished flag is raised (which sets
`running = False`, so no later frame is processed), and counts how many times
the loop flags finished. -/
def run_end (m wait : ℚ) (s : EndState) : List ℚ → EndState × ℕ
  | [] => (s, 0)
  | t :: rest =>
    let s1 := end_step m wait s t
    if s1.finished = true then (s1, 1) else run_end m wait s1 rest

theorem le_midi_end_time (notes : List Note) :
    ∀ n ∈ notes, n.finish ≤ midi_end_time notes := by
  have key : ∀ (l : List Note) (a : ℚ),
      a ≤ l.foldl (fun m n => max m n.finish) a ∧
        ∀ n ∈ l, n.finish ≤ l.foldl (fun m n => max m n.finish) a := by
    intro l
    induction l with
    | nil => intro a; simp
    | cons x xs ih =>
      intro a
      refine ⟨?_, ?_⟩
      · exact le_trans (le_max_left a x.finish) (ih (max a x.finish)).1
      · intro n hn
        rcases List.mem_cons.mp hn with rfl | hn
        · exact le_trans (le_max_right a n.finish) (ih (max a n.finish)).1
        · exact (ih (max a x.finish)).2 n hn
  exact (key notes 0).2

theorem run_end_count_le_one (m wait : ℚ) (s : EndState) (ts : List ℚ) :
    (run_end m wait s ts).2 ≤ 1 := by
  induction ts generalizing s with
  | nil => simp [run_end]
  | cons t rest ih =>
    rw [run_end]
    by_cases hf : (end_step m wait s t).finished = true
    · rw [if_pos hf]
    · rw [if_neg hf]
      exact ih _

theorem run_end_cons_continue (m wait : ℚ) (s : EndState) (t : ℚ)
    (rest : List ℚ) (h : (end_step m wait s t).finished = false) :
    run_end m wait s (t :: rest) = run_end m wait (end_step m wait s t) rest := by
  simp [run_end, h]

theorem run_end_cons_finished (m wait : ℚ) (s : EndState) (t : ℚ)
    (rest : List ℚ) (h : (end_step m wait s t).finished = true) :
    run_end m wait s (t :: rest) = (end_step m wait s t, 1) := by
  simp [run_end, h]

theorem run_end_skip_pre (m wait : ℚ) (pre rest : List ℚ) (s : EndState)
    (hs1 : s.end_timer_started = false) (hs2 : s.finished = false)
    (hpre : ∀ x ∈ pre, x < m) :
    run_end m wait s (pre ++ rest) = run_end m wait s rest := by
  induction pre with
  | nil => rfl
  | cons x xs ih =>
    have hx : x < m := hpre x (by simp)
    have hstep : end_step m wait s x = s := by
      simp [end_step, hs1, not_le.mpr hx]
    rw [List.cons_append,
      run_end_cons_continue m wait s x (xs ++ rest) (by rw [hstep]; exact hs2),
      hstep]
    exact ih (fun y hy => hpre y (by simp [hy]))

theorem run_end_skip_mid (m wait t0 : ℚ) (mid rest : List ℚ)
    (hmid : ∀ x ∈ mid, x - t0 < wait) :
    run_end m wait ⟨true, t0, false⟩ (mid ++ rest) =
      run_end m wait ⟨true, t0, false⟩ rest := by
  induction mid with
  | nil => rfl
  | cons x xs ih =>
    have hx : x - t0 < wait := hmid x (by simp)
    have hstep : end_step m wait ⟨true, t0, false⟩ x = ⟨true, t0, false⟩ := by
      simp [end_step, not_le.mpr hx]
    rw [List.cons_append,
      run_end_cons_continue m wait _ x (xs ++ rest) (by rw [hstep]),
      hstep]
    exact ih (fun y hy => hmid y (by simp [hy]))

/-- C4: once `t` exceeds the maximum end time the sounding set is empty (so,
with monotone time, it stays empty at all later frames); the playback loop
flags finished at most once on any frame sequence; and on a frame sequence
whose times before `t0` are below the maximum end time, where `t0` first
reaches it, and whose times in `mid` have not yet waited `END_WAIT_SECONDS`
while `u` has, the loop stops with the finished flag raised exactly once and
with the wait measured from `t0`, the first frame that reached the end. -/
theorem end_of_piece (notes : List Note) (wait : ℚ) (hw : 0 < wait)
    (pre : List ℚ) (t0 : ℚ) (mid : List ℚ) (u : ℚ) (post : List ℚ)
    (hpre : ∀ x ∈ pre, x < midi_end_time notes)
    (ht0 : midi_end_time notes ≤ t0)
    (hmid : ∀ x ∈ mid, x - t0 < wait)
    (hu : wait ≤ u - t0) :
    (∀ t : ℚ, midi_end_time notes < t → playing_pitches notes t = ∅) ∧
    (∀ (s : EndState) (ts : List ℚ), (run_end (midi_end_time notes) wait s ts).2 ≤ 1) ∧
    run_end (midi_end_time notes) wait ⟨false, 0, false⟩
        (pre ++ t0 :: (mid ++ u :: post)) =
      (⟨true, t0, true⟩, 1) := by
  refine ⟨?_, fun s ts => run_end_count_le_one _ _ s ts, ?_⟩
  · intro t ht
    apply Finset.eq_empty_of_forall_not_mem
    intro q hq
    rcases (mem_playing_pitches notes t q).mp hq with ⟨n, hn, _, _, h2⟩
    exact absurd (lt_of_le_of_lt (le_trans h2 (le_midi_end_time notes n hn)) ht)
      (lt_irrefl t)
  · rw [run_end_skip_pre _ _ pre _ _ rfl rfl hpre]
    have hstep0 : end_step (midi_end_time notes) wait ⟨false, 0, false⟩ t0 =
        ⟨true, t0, false⟩ := by
      simp [end_step, ht0, not_le.mpr hw]
    rw [run_end_cons_continue _ _ _ t0 _ (by rw [hstep0]), hstep0]
    rw [run_end_skip_mid _ _ _ mid _ hmid]
    have hstepu : end_step (midi_end_time notes) wait ⟨true, t0, false⟩ u =
        ⟨true, t0, true⟩ := by
      simp [end_step, hu]
    rw [run_end_cons_finished _ _ _ u _ (by rw [hstepu]), hstepu]

/-- Witness for C4: one note ending at time 1, frames at 1/2 (before the
end), 1 (first frame reaching the end), 2 (wait of 3 not yet elapsed), 5
(wait elapsed: finished), 6 (never processed). -/
theorem end_of_piece_witness :
    playing_pitches [Note.mk 0 1 60] 2 = ∅ ∧
      run_end (midi_end_time [Note.mk 0 1 60]) END_WAIT_SECONDS ⟨false, 0, false⟩
          ([1/2] ++ (1 : ℚ) :: ([2] ++ (5 : ℚ) :: [6])) =
        (⟨true, 1, true⟩, 1) := by
  have hM : midi_end_time [Note.mk 0 1 60] = 1 := by
    norm_num [midi_end_time, List.foldl]
  have h := end_of_piece [Note.mk 0 1 60] END_WAIT_SECONDS
    (by norm_num [END_WAIT_SECONDS]) [1/2] 1 [2] 5 [6]
    (by intro x hx; rcases List.mem_singleton.mp hx with rfl; rw [hM]; norm_num)
    (by rw [hM])
    (by intro x hx; rcases List.mem_singleton.mp hx with rfl; norm_num [END_WAIT_SECONDS])
    (by norm_num [END_WAIT_SECONDS])
  exact ⟨h.1 2 (by rw [hM]; norm_num), h.2.2⟩

/-- The metronome thread loop (metronomeApp.py lines 61-76,
MusicCompanionApp.py lines 97-109):

    while not stop_event.is_set():
        ... play click for the current beat ...
        beat = (beat % beats) + 1
        stop_event.wait(interval)

The loop is driven by the sequence of stop-flag values it observes, one per
iteration check; it returns the beats at which a click was played.  An
exhausted reading list models a loop still running (flag never set). -/
def metro_loop (beats : ℕ) : ℕ → List Bool → List ℕ
  | _, [] => []
  | beat, f :: fs =>
    if f then [] else beat :: metro_loop beats (beat % beats + 1) fs

/-- C7: cooperative cancellation — once the stop flag is observed set, the
metronome loop performs no further iteration: the clicks played are exactly
those of the iterations before the flag was observed, and any readings after
the set flag are irrelevant (the loop has exited). -/
theorem metro_loop_stops (beats beat : ℕ) (pre rest : List Bool)
    (hpre : ∀ f ∈ pre, f = false) :
    metro_loop beats beat (pre ++ true :: rest) =
        metro_loop beats beat (pre ++ [true]) ∧
    (metro_loop beats beat (pre ++ true :: rest)).length = pre.length := by
  induction pre generalizing beat with
  | nil => simp [metro_loop]
  | cons f fs ih =>
    have hf : f = false := hpre f (by simp)
    subst hf
    have h := ih (beat % beats + 1) (fun g hg => hpre g (by simp [hg]))
    simp only [List.cons_append, metro_loop, if_false, Bool.false_eq_true,
      ite_false, List.append_eq]
    exact ⟨by rw [h.1], by simp [h.2]⟩

/-- Witness for C7: with two false readings then the flag set, the loop plays
exactly the two clicks before the stop and ignores later readings. -/
theorem metro_loop_stops_witness :
    metro_loop 4 1 ([false, false] ++ true :: [false, false]) =
        metro_loop 4 1 ([false, false] ++ [true]) ∧
    (metro_loop 4 1 ([false, false] ++ true :: [false, false])).length = 2 :=
  metro_loop_stops 4 1 [false, false] [false, false] (by decide)

/-- The beat counter of the metronome loop: `beat = 1` initially
(metronomeApp.py line 60), then `beat = (beat % beats) + 1` each tick
(line 74).  `beat_seq beats i` is its value at iteration `i`. -/
def beat_seq (beats : ℕ) : ℕ → ℕ
  | 0 => 1
  | i + 1 => beat_seq beats i % beats + 1

/-- C9: for `beats ≥ 1` the beat counter stays in `1..beats` and cycles
`1, 2, ..., beats, 1, 2, ...`, i.e. its value at iteration `i` is
`i % beats + 1`. -/
theorem beat_counter_invariant (beats : ℕ) (hb : 1 ≤ beats) :
    (∀ i, 1 ≤ beat_seq beats i ∧ beat_seq beats i ≤ beats) ∧
    (∀ i, beat_seq beats i = i % beats + 1) := by
  have hcycle : ∀ i, beat_seq beats i = i % beats + 1 := by
    intro i
    induction i with
    | zero => simp [beat_seq]
    | succ k ihk =>
      rw [beat_seq, ihk, Nat.mod_add_mod]
  refine ⟨fun i => ?_, hcycle⟩
  rw [hcycle i]
  exact ⟨Nat.le_add_left 1 _, Nat.mod_lt i (Nat.lt_of_lt_of_le Nat.zero_lt_one hb)⟩

/-- Witness for C9: with 4 beats, iteration 6 holds beat 3 = 6 % 4 + 1,
within the range 1..4. -/
theorem beat_counter_invariant_witness :
    (1 ≤ beat_seq 4 6 ∧ beat_seq 4 6 ≤ 4) ∧ beat_seq 4 6 = 6 % 4 + 1 :=
  ⟨(beat_counter_invariant 4 (by norm_num)).1 6,
    (beat_counter_invariant 4 (by norm_num)).2 6⟩

/-- `load_midi` of MusicCompanionApp.py lines 156-178, restricted to the pure
part after the external MIDI parse (the input is the extracted note list):

    lowest = 127; highest = 0; end_time = 0.0
    for ...: lowest = min(lowest, n.pitch); highest = max(highest, n.pitch)
             end_time = max(end_time, n.end)
    if lowest > highest: lowest = 60; highest = 72
    num_keys = highest - lowest + 1

Returns `(lowest, highest, end_time, num_keys)`. -/
def load_midi_mca (notes : List Note) : ℕ × ℕ × ℚ × ℕ :=
  let lowest := notes.foldl (fun l n => min l n.pitch) 127
  let highest := notes.foldl (fun h n => max h n.pitch) 0
  let end_time := notes.foldl (fun e n => max e n.finish) 0
  let p := if highest < lowest then (60, 72) else (lowest, highest)
  (p.1, p.2, end_time, p.2 - p.1 + 1)

/-- `load_midi` of metronomeApp.py lines 1262-1279 (the mover variant): with
a non-empty note list, `min`/`max` over the notes; with an empty list the
defaults `lowest = 21`, `highest = 108`, `end_time = 60`.  Returns
`(lowest, highest, end_time, num_keys)`. -/
def load_midi_mover (notes : List Note) : ℕ × ℕ × ℚ × ℕ :=
  match notes with
  | [] => (21, 108, 60, 88)
  | n :: ns =>
    let lowest := ns.foldl (fun l x => min l x.pitch) n.pitch
    let highest := ns.foldl (fun h x => max h x.pitch) n.pitch
    let end_time := ns.foldl (fun e x => max e x.finish) n.finish
    (lowest, highest, end_time, highest - lowest + 1)

theorem foldl_max_bounds {β : Type} [LinearOrder β] (f : Note → β)
    (l : List Note) (a : β) :
    a ≤ l.foldl (fun m x => max m (f x)) a ∧
      ∀ n ∈ l, f n ≤ l.foldl (fun m x => max m (f x)) a := by
  induction l generalizing a with
  | nil => simp
  | cons x xs ih =>
    refine ⟨le_trans (le_max_left a (f x)) (ih (max a (f x))).1, ?_⟩
    intro n hn
    rcases List.mem_cons.mp hn with rfl | hn
    · exact le_trans (le_max_right a (f n)) (ih (max a (f n))).1
    · exact (ih (max a (f x))).2 n hn

theorem foldl_min_bounds {β : Type} [LinearOrder β] (f : Note → β)
    (l : List Note) (a : β) :
    l.foldl (fun m x => min m (f x)) a ≤ a ∧
      ∀ n ∈ l, l.foldl (fun m x => min m (f x)) a ≤ f n := by
  induction l generalizing a with
  | nil => simp
  | cons x xs ih =>
    refine ⟨le_trans (ih (min a (f x))).1 (min_le_left a (f x)), ?_⟩
    intro n hn
    rcases List.mem_cons.mp hn with rfl | hn
    · exact le_trans (ih (min a (f n))).1 (min_le_right a (f n))
    · exact (ih (min a (f x))).2 n hn

/-- C8: both `load_midi` variants return `lowest ≤ highest`,
`num_keys = highest - lowest + 1 ≥ 1`, every note's pitch within
`[lowest, highest]`, `end_time` at least every note's end; the empty input
yields the defaults (60, 72) resp. (21, 108, end 60). -/
theorem load_midi_postcondition (notes : List Note) :
    ((load_midi_mca notes).1 ≤ (load_midi_mca notes).2.1 ∧
     (load_midi_mca notes).2.2.2 =
       (load_midi_mca notes).2.1 - (load_midi_mca notes).1 + 1 ∧
     1 ≤ (load_midi_mca notes).2.2.2 ∧
     ∀ n ∈ notes, (load_midi_mca notes).1 ≤ n.pitch ∧
       n.pitch ≤ (load_midi_mca notes).2.1 ∧
       n.finish ≤ (load_midi_mca notes).2.2.1) ∧
    ((load_midi_mover notes).1 ≤ (load_midi_mover notes).2.1 ∧
     (load_midi_mover notes).2.2.2 =
       (load_midi_mover notes).2.1 - (load_midi_mover notes).1 + 1 ∧
     1 ≤ (load_midi_mover notes).2.2.2 ∧
     ∀ n ∈ notes, (load_midi_mover notes).1 ≤ n.pitch ∧
       n.pitch ≤ (load_midi_mover notes).2.1 ∧
       n.finish ≤ (load_midi_mover notes).2.2.1) ∧
    load_midi_mca [] = (60, 72, 0, 13) ∧
    load_midi_mover [] = (21, 108, 60, 88) := by
  refine ⟨?_, ?_, by norm_num [load_midi_mca, List.foldl], rfl⟩
  · have hlow := foldl_min_bounds Note.pitch notes 127
    have hhigh := foldl_max_bounds Note.pitch notes 0
    have hend := foldl_max_bounds Note.finish notes 0
    simp only [load_midi_mca]
    by_cases hc : notes.foldl (fun h n => max h n.pitch) 0 <
        notes.foldl (fun l n => min l n.pitch) 127
    · rw [if_pos hc]
      refine ⟨by norm_num, by norm_num, by norm_num, ?_⟩
      intro n hn
      exact absurd (lt_of_le_of_lt (le_trans (hlow.2 n hn) (hhigh.2 n hn)) hc)
        (lt_irrefl _)
    · rw [if_neg hc]
      refine ⟨not_lt.mp hc, trivial, Nat.le_add_left 1 _, ?_⟩
      intro n hn
      exact ⟨hlow.2 n hn, hhigh.2 n hn, hend.2 n hn⟩
  · cases notes with
    | nil =>
      exact ⟨by norm_num [load_midi_mover], rfl, by norm_num [load_midi_mover],
        by simp⟩
    | cons m ms =>
      have hlow := foldl_min_bounds Note.pitch ms m.pitch
      have hhigh := foldl_max_bounds Note.pitch ms m.pitch
      have hend := foldl_max_bounds Note.finish ms m.finish
      simp only [load_midi_mover]
      have hlh : ms.foldl (fun l x => min l x.pitch) m.pitch ≤
          ms.foldl (fun h x => max h x.pitch) m.pitch :=
        le_trans hlow.1 hhigh.1
      refine ⟨hlh, trivial, Nat.le_add_left 1 _, ?_⟩
      intro n hn
      rcases List.mem_cons.mp hn with rfl | hn
      · exact ⟨hlow.1, hhigh.1, hend.1⟩
      · exact ⟨hlow.2 n hn, hhigh.2 n hn, hend.2 n hn⟩

/-- Witness for C8 (the theorem's note-membership conjuncts are conditionals):
instantiated on a one-note list, the note's pitch is within the returned
range of both loaders and the empty-input defaults hold. -/
theorem load_midi_postcondition_witness :
    ((load_midi_mca [Note.mk 0 2 60]).1 ≤ 60 ∧
      60 ≤ (load_midi_mca [Note.mk 0 2 60]).2.1) ∧
    load_midi_mca [] = (60, 72, 0, 13) ∧
    load_midi_mover [] = (21, 108, 60, 88) := by
  have h := load_midi_postcondition [Note.mk 0 2 60]
  have hmem := h.1.2.2.2 (Note.mk 0 2 60) (by simp)
  exact ⟨⟨hmem.1, hmem.2.1⟩, (load_midi_postcondition []).2.2⟩

/-- Python `str.strip()` whitespace predicate: the ASCII whitespace
characters space, tab, newline, carriage return, vertical tab, form feed. -/
def is_py_space (c : Char) : Bool :=
  c = ' ' || c = '\t' || c = '\n' || c = '\r' || c = '\x0b' || c = '\x0c'

/-- Python `str.strip()` on ASCII input: drop whitespace from both ends
(`name.strip()` / `dur.strip()`, create_sheet.py lines 64-65). -/
def py_strip (s : String) : String :=
  ⟨((s.data.dropWhile is_py_space).reverse.dropWhile is_py_space).reverse⟩

/-- Python `str.lower()` on ASCII input (`dur.lower()`,
create_sheet.py line 78). -/
def py_lower (s : String) : String :=
  ⟨s.data.map Char.toLower⟩

def is_ascii_digit (c : Char) : Bool := '0' ≤ c && c ≤ '9'

/-- Decimal digit string to a natural number. -/
def digits_to_nat (l : List Char) : ℕ :=
  l.foldl (fun a c => a * 10 + (c.toNat - 48)) 0

/-- Modelled from the spec: the repository calls the external Python builtin
`float()` (create_sheet.py line 68) whose source is not part of this
repository; this models its acceptance of decimal literals — optional sign,
digits with optional fractional part, optional signed exponent — returning
the exact rational value, and rejection (`ValueError`, caught by the caller)
of everything else.  The special forms `inf`/`nan` and digit-group
underscores are outside the modelled fragment. -/
def py_float_core (l : List Char) : Option ℚ :=
  let ip := l.takeWhile is_ascii_digit
  let r1 := l.dropWhile is_ascii_digit
  let fr : List Char × List Char :=
    match r1 with
    | '.' :: rest => (rest.takeWhile is_ascii_digit, rest.dropWhile is_ascii_digit)
    | _ => ([], r1)
  let fp := fr.1
  let r2 := fr.2
  if ip.isEmpty && fp.isEmpty then none
  else
    let mant : ℚ := (digits_to_nat ip : ℚ) + (digits_to_nat fp : ℚ) / (10 ^ fp.length)
    match r2 with
    | [] => some mant
    | e :: rest =>
      if e = 'e' || e = 'E' then
        let sr : ℤ × List Char :=
          match rest with
          | '+' :: r => (1, r)
          | '-' :: r => (-1, r)
          | r => (1, r)
        let ed := sr.2.takeWhile is_ascii_digit
        let r3 := sr.2.dropWhile is_ascii_digit
        if ed.isEmpty || !r3.isEmpty then none
        else some (mant * (10 : ℚ) ^ (sr.1 * (digits_to_nat ed : ℤ)))
      else none

/-- Sign handling of the modelled `float()`: see `py_float_core`. -/
def py_float (s : String) : Option ℚ :=
  match s.data with
  | '+' :: rest => py_float_core rest
  | '-' :: rest => (py_float_core rest).map (fun q => -q)
  | l => py_float_core l

/-- The split of create_sheet.py lines 60-63:

    if ':' in token:
        name, dur = token.split(':', 1)
    else:
        name, dur = token, 'quarter'
-/
def split_token (token : String) : String × String :=
  if token.data.contains ':' then
    (⟨token.data.takeWhile (fun c => c != ':')⟩,
     ⟨(token.data.dropWhile (fun c => c != ':')).tail⟩)
  else (token, "quarter")

/-- The duration-word fallback of create_sheet.py lines 70-79:
`mapping.get(dur.lower(), 1.0)` over whole/half/quarter/eighth/sixteenth. -/
def duration_map (s : String) : ℚ :=
  if s = "whole" then 4
  else if s = "half" then 2
  else if s = "quarter" then 1
  else if s = "eighth" then 1/2
  else if s = "sixteenth" then 1/4
  else 1

/-- `parse_note_token` of create_sheet.py lines 58-79: split at the first
`:` (duration defaulting to `quarter`), strip both parts, try a numeric
duration first, otherwise fall back to the case-insensitive word mapping. -/
def parse_note_token (token : String) : String × ℚ :=
  let nd := split_token token
  let name := py_strip nd.1
  let dur := py_strip nd.2
  match py_float dur with
  | some q => (name, q)
  | none => (name, duration_map (py_lower dur))

theorem duration_map_pos (s : String) : 0 < duration_map s := by
  rw [duration_map]
  split_ifs <;> norm_num

theorem duration_map_mem (s : String) :
    duration_map s ∈ ({4, 2, 1, 1/2, 1/4} : Finset ℚ) := by
  rw [duration_map]
  split_ifs <;> simp

/-- Counterexample to C10 as stated: on token `C4:-1` the numeric parse
succeeds with the negative value -1, so the returned `qlen` is not strictly
positive. -/
theorem parse_note_token_negative :
    parse_note_token "C4:-1" = ("C4", -1) ∧ ¬(0 < (-1 : ℚ)) := by
  constructor
  · simp +decide [parse_note_token, split_token, py_strip, py_float,
      py_float_core, is_py_space, is_ascii_digit, digits_to_nat,
      List.takeWhile, List.dropWhile]
  · norm_num

/-- C10 (amended): `parse_note_token` is total and returns `(name, qlen)`
with the duration split at the first `:` and defaulting to quarter (= 1.0);
a token without `:` yields the stripped token and qlen 1; the known duration
words map case-insensitively to 4, 2, 1, 0.5, 0.25; a parsable numeric
duration is returned as its exact value (and may be zero or negative);
whenever the numeric parse fails, qlen comes from the word mapping and is
strictly positive. -/
theorem parse_note_token_characterization :
    (∀ tok : String, tok.data.contains ':' = false →
        parse_note_token tok = (py_strip tok,
          duration_map (py_lower (py_strip "quarter")))) ∧
    parse_note_token "C4:whole" = ("C4", 4) ∧
    parse_note_token "C4:half" = ("C4", 2) ∧
    parse_note_token "C4:quarter" = ("C4", 1) ∧
    parse_note_token "C4:eighth" = ("C4", 1/2) ∧
    parse_note_token "C4:sixteenth" = ("C4", 1/4) ∧
    parse_note_token "C4:WHOLE" = ("C4", 4) ∧
    parse_note_token "G#3:0.5" = ("G#3", 1/2) ∧
    parse_note_token " C4 " = ("C4", 1) ∧
    parse_note_token "C4:unknown" = ("C4", 1) ∧
    parse_note_token "C4:half:x" = ("C4", 1) ∧
    (∀ tok : String, py_float (py_strip (split_token tok).2) = none →
        0 < (parse_note_token tok).2 ∧
          (parse_note_token tok).2 ∈ ({4, 2, 1, 1/2, 1/4} : Finset ℚ)) := by
  have hdefault : ∀ tok : String, tok.data.contains ':' = false →
      parse_note_token tok = (py_strip tok,
        duration_map (py_lower (py_strip "quarter"))) := by
    intro tok hcolon
    rw [parse_note_token, split_token, if_neg (by rw [hcolon]; exact Bool.false_ne_true)]
    rcases hfl : py_float (py_strip "quarter") with _ | q
    · rfl
    · exact absurd hfl (by
        rw [show py_strip "quarter" = "quarter" from rfl]
        simp +decide [py_float, py_float_core, is_ascii_digit,
          List.takeWhile, List.dropWhile])
  have hpos : ∀ tok : String, py_float (py_strip (split_token tok).2) = none →
      0 < (parse_note_token tok).2 ∧
        (parse_note_token tok).2 ∈ ({4, 2, 1, 1/2, 1/4} : Finset ℚ) := by
    intro tok hfl
    simp only [parse_note_token, hfl]
    exact ⟨duration_map_pos _, duration_map_mem _⟩
  refine ⟨hdefault, ?_, ?_, ?_, ?_, ?_, ?_, ?_, ?_, ?_, ?_, hpos⟩
  all_goals
    simp +decide [parse_note_token, split_token, py_strip, py_float,
      py_float_core, py_lower, duration_map, is_py_space, is_ascii_digit,
      digits_to_nat, List.takeWhile, List.dropWhile] <;> norm_num

/-- Witness for C10's amended theorem: the no-colon token `A4` yields a
quarter (qlen 1), and the non-numeric duration of `C4:whole` is positive. -/
theorem parse_note_token_characterization_witness :
    parse_note_token "A4" = ("A4", 1) ∧ 0 < (parse_note_token "C4:whole").2 := by
  constructor
  · have h := parse_note_token_characterization.1 "A4" (by decide)
    rw [h]
    simp +decide [py_strip, py_lower, duration_map, is_py_space]
  · exact (parse_note_token_characterization.2.2.2.2.2.2.2.2.2.2.2 "C4:whole"
      (by simp +decide [split_token, py_strip, py_float, py_float_core,
        is_py_space, is_ascii_digit, List.takeWhile, List.dropWhile])).1

end SharkByte
